import Mathlib

/-!
Shallow embedding of the GMP Chudnovsky "blocks and cyclic" Pi computation
(src/sources/gmp/algorithms/chudnovsky.c and src/sources/gmp/pi_calculator.c).

Arbitrary-precision GMP floats (`mpf_t`) are modelled by exact rationals, so
properties stated "within rounding tolerance at the configured precision" are
settled at the exact level.  C `int` arithmetic is modelled by `Nat`, which is
faithful for every accepted configuration except the argument of
`mpf_add_ui(dep_c, dep_c, B * num_threads)` (chudnovsky.c line 151):
there the 32-bit signed product can overflow for small accepted thread counts,
so that argument is modelled with explicit 32-bit wraparound followed by the
conversion to `unsigned long`.
-/

namespace PiDecimals

/-- Series constant `A = 13591409` (chudnovsky.c line 8). -/
def A : ℕ := 13591409

/-- Series constant `B = 545140134` (chudnovsky.c line 9). -/
def B : ℕ := 545140134

/-- Series constant `C = 640320` (chudnovsky.c line 10). -/
def C : ℕ := 640320

/-- Series constant `D = 426880` (chudnovsky.c line 11). -/
def D : ℕ := 426880

/-- Series constant `E = 10005` (chudnovsky.c line 12). -/
def E : ℕ := 10005

/-- The mutable state of one worker thread: the private accumulator
`local_thread_pi`, the recurrence variables `dep_a`, `dep_b`, `dep_c`, and the
scratch variable `aux` (chudnovsky.c line 111). -/
structure WState where
  pi : ℚ
  dep_a : ℚ
  dep_b : ℚ
  dep_c : ℚ
  aux : ℚ
  deriving DecidableEq, Repr

/-- `chudnovsky_iteration_gmp` (chudnovsky.c lines 47-52):
`aux = dep_a * dep_c; aux = aux / dep_b; pi = pi + aux`.
The parameter `n` is unused, mirroring the C signature. -/
def chudnovsky_iteration_gmp (_n : ℕ) (st : WState) : WState :=
  let aux := st.dep_a * st.dep_c
  let aux := aux / st.dep_b
  { st with pi := st.pi + aux, aux := aux }

/-- `init_dep_a_gmp` (chudnovsky.c lines 59-79): the directly computed value
`(6 n)! / ((3 n)! * (n!)^3)` at `n = block_start`. -/
def init_dep_a_gmp (block_start : ℕ) : ℚ :=
  let factorial_n := Nat.factorial block_start
  let divisor := Nat.factorial (3 * block_start)
  let dividend := Nat.factorial (6 * block_start)
  let factorial_n_cubed := factorial_n ^ 3
  let divisor_total := divisor * factorial_n_cubed
  (dividend : ℚ) / (divisor_total : ℚ)

/-- Two's-complement value of a mathematical integer truncated to a 32-bit
signed C `int`. -/
def toInt32 (x : ℤ) : ℤ := (x + 2 ^ 31) % 2 ^ 32 - 2 ^ 31

/-- Conversion of a (possibly negative) C `int` value to a 64-bit
`unsigned long`. -/
def toULong (x : ℤ) : ℤ := x % 2 ^ 64

/-- The value the C code passes to `mpf_add_ui(dep_c, dep_c, B * num_threads)`
(chudnovsky.c line 151): the `int` product `B * num_threads` (with 32-bit
wraparound on overflow) converted to `unsigned long`. -/
def depCIncrement (num_threads : ℕ) : ℕ :=
  (toULong (toInt32 ((B : ℤ) * num_threads))).toNat

/-- The process-wide constant `c = (-C)^(3 * num_threads)`
(chudnovsky.c lines 101-103). -/
def cVal (num_threads : ℕ) : ℚ := (-(C : ℚ)) ^ (3 * num_threads)

/-- One execution of the worker loop body (chudnovsky.c lines 126-152) at index
`i`: one `chudnovsky_iteration_gmp` call followed by the updates of `dep_a`
(one-index ratio step), `dep_b` (multiply by `c`) and `dep_c` (add the
`mpf_add_ui` argument). -/
def loopBody (num_threads : ℕ) (c : ℚ) (i : ℕ) (st : WState) : WState :=
  let st := chudnovsky_iteration_gmp i st
  let factor_a : ℕ := 12 * i
  let dep_a_dividend : ℚ := ((factor_a + 10 : ℕ) : ℚ)
  let dep_a_dividend := dep_a_dividend * ((factor_a + 6 : ℕ) : ℚ)
  let dep_a_dividend := dep_a_dividend * ((factor_a + 2 : ℕ) : ℚ)
  let dep_a_dividend := dep_a_dividend * st.dep_a
  let dep_a_divisor : ℚ := ((i + 1 : ℕ) : ℚ) ^ 3
  { st with
    dep_a := dep_a_dividend / dep_a_divisor
    dep_b := st.dep_b * c
    dep_c := st.dep_c + (depCIncrement num_threads : ℚ) }

/-- The initial worker state of thread `thread_id` (chudnovsky.c lines
115-122): `local_thread_pi = 0`, `dep_a` directly initialised at
`block_start + thread_id`, `dep_b = c^(block_start + thread_id)`,
`dep_c = B * (block_start + thread_id) + A`, `aux = 0` (from `mpf_inits`). -/
def workerInit (num_threads block_start thread_id : ℕ) : WState :=
  { pi := 0
    dep_a := init_dep_a_gmp (block_start + thread_id)
    dep_b := cVal num_threads ^ (block_start + thread_id)
    dep_c := (B : ℚ) * ((block_start + thread_id : ℕ) : ℚ) + (A : ℚ)
    aux := 0 }

/-- The index sequence of
`for (i = block_start + thread_id; i < block_end; i += num_threads)`
(chudnovsky.c line 126). -/
def workerIndices (block_start thread_id block_end num_threads : ℕ) : List ℕ :=
  List.range' (block_start + thread_id)
    ((block_end - (block_start + thread_id) + num_threads - 1) / num_threads)
    num_threads

/-- The final state of worker thread `thread_id` over block
`[block_start, block_end)`: the loop body folded over its strided index
sequence starting from the directly initialised state. -/
def runWorker (num_threads block_start thread_id block_end : ℕ) : WState :=
  (workerIndices block_start thread_id block_end num_threads).foldl
    (fun st i => loopBody num_threads (cVal num_threads) i st)
    (workerInit num_threads block_start thread_id)

/-- `block_size = (num_iterations + num_procs - 1) / num_procs`
(chudnovsky.c line 94). -/
def block_size (num_iterations num_procs : ℕ) : ℕ :=
  (num_iterations + num_procs - 1) / num_procs

/-- `block_start = proc_id * block_size` (chudnovsky.c line 95). -/
def block_start (num_iterations num_procs proc_id : ℕ) : ℕ :=
  proc_id * block_size num_iterations num_procs

/-- `block_end = block_start + block_size`, clamped to `num_iterations`
(chudnovsky.c lines 96-97). -/
def block_end (num_iterations num_procs proc_id : ℕ) : ℕ :=
  min (block_start num_iterations num_procs proc_id +
        block_size num_iterations num_procs)
    num_iterations

/-- `local_proc_pi` after the parallel region (chudnovsky.c lines 99 and
154-156): every thread folds its private sum into the process total exactly
once, inside the critical section; since rational addition is commutative and
associative this is the sum over threads. -/
def local_proc_pi (num_procs proc_id num_iterations num_threads : ℕ) : ℚ :=
  ∑ t ∈ Finset.range num_threads,
    (runWorker num_threads (block_start num_iterations num_procs proc_id) t
      (block_end num_iterations num_procs proc_id)).pi

/-- The value delivered at the root by `MPI_Reduce` with the user-defined
`add_gmp` operation (chudnovsky.c lines 163-175): the sum of every process's
`local_proc_pi`. -/
def globalPi (num_procs num_iterations num_threads : ℕ) : ℚ :=
  ∑ p ∈ Finset.range num_procs, local_proc_pi num_procs p num_iterations num_threads

/-- The value held in the output parameter `pi` when
`chudnovsky_algorithm_gmp` returns (chudnovsky.c lines 90-188): at the root,
`pi` is the unpacked reduction result transformed by
`e = sqrt(e); e = e * D; pi = e / pi`; at every other rank `pi` is untouched. -/
noncomputable def chudnovsky_algorithm_gmp (num_procs proc_id : ℕ) (pi : ℝ)
    (num_iterations num_threads : ℕ) : ℝ :=
  let e : ℝ := (E : ℝ)
  let g : ℚ := globalPi num_procs num_iterations num_threads
  if proc_id = 0 then
    let e := Real.sqrt e
    let e := e * (D : ℝ)
    e / (g : ℝ)
  else pi

/-- Observable outcome of `check_errors_gmp`: whether the run aborts, the
exit status passed to `exit`, and whether this rank prints the explanatory
message. -/
structure CheckResult where
  exits : Bool
  exit_code : ℤ
  prints_message : Bool
  deriving DecidableEq, Repr

/-- `check_errors_gmp` (pi_calculator.c lines 18-32): abort with `exit(-1)`
when `precision <= 0` or `num_iterations < num_threads * num_procs`, printing
only at rank 0; otherwise do nothing. -/
def check_errors_gmp (num_procs precision num_iterations num_threads proc_id : ℤ) :
    CheckResult :=
  if precision ≤ 0 then
    { exits := true, exit_code := -1, prints_message := proc_id == 0 }
  else if num_iterations < num_threads * num_procs then
    { exits := true, exit_code := -1, prints_message := proc_id == 0 }
  else
    { exits := false, exit_code := 0, prints_message := false }

/-- The `mpf_t` variables initialised during a run of `calculate_pi_gmp`
with the blocks-and-cyclic Chudnovsky algorithm. -/
inductive MpfVar where
  | pi
  | local_proc_pi
  | e
  | c
  | local_thread_pi
  | dep_a
  | dep_b
  | dep_a_dividend
  | dep_a_divisor
  | aux
  | float_dividend
  | float_divisor
  | dep_c
  deriving DecidableEq, Repr

/-- A GMP call that interacts with the global default precision: either
`mpf_set_default_prec` or the initialisation of an `mpf_t` value. -/
inductive GmpCall where
  | setDefaultPrec (bits : ℤ)
  | initMpf (v : MpfVar)
  deriving DecidableEq, Repr

/-- The `mpf` initialisations done by each worker thread, in program order
(chudnovsky.c lines 115-119, with the two `mpf_init`s of `init_dep_a_gmp`,
chudnovsky.c line 63, in between). -/
def threadInitCalls : List GmpCall :=
  [GmpCall.initMpf MpfVar.local_thread_pi, GmpCall.initMpf MpfVar.dep_a,
   GmpCall.initMpf MpfVar.dep_b, GmpCall.initMpf MpfVar.dep_a_dividend,
   GmpCall.initMpf MpfVar.dep_a_divisor, GmpCall.initMpf MpfVar.aux,
   GmpCall.initMpf MpfVar.float_dividend, GmpCall.initMpf MpfVar.float_divisor,
   GmpCall.initMpf MpfVar.dep_c]

/-- The `mpf` initialisations of `chudnovsky_algorithm_gmp` (chudnovsky.c
lines 99-103 and the per-thread initialisations of the parallel region). -/
def chudnovskyInitCalls (num_threads : ℕ) : List GmpCall :=
  [GmpCall.initMpf MpfVar.local_proc_pi, GmpCall.initMpf MpfVar.e,
   GmpCall.initMpf MpfVar.c] ++
    (List.range num_threads).flatMap (fun _ => threadInitCalls)

/-- The precision-relevant GMP call sequence of `calculate_pi_gmp`
(pi_calculator.c lines 48-52 followed by the chudnovsky algorithm):
`mpf_set_default_prec(precision * 8)` first, then `mpf_init_set_ui(pi, 0)` at
rank 0 only, then the algorithm's initialisations. -/
def calculate_pi_gmp_calls (precision : ℤ) (proc_id num_threads : ℕ) : List GmpCall :=
  GmpCall.setDefaultPrec (precision * 8) ::
    ((if proc_id = 0 then [GmpCall.initMpf MpfVar.pi] else []) ++
      chudnovskyInitCalls num_threads)

/-- Replay semantics of a GMP call list: the default precision in effect at
each `mpf` initialisation (`none` until the first `mpf_set_default_prec`). -/
def initPrecs : List GmpCall → Option ℤ → List (MpfVar × Option ℤ)
  | [], _ => []
  | GmpCall.setDefaultPrec b :: rest, _ => initPrecs rest (some b)
  | GmpCall.initMpf v :: rest, d => (v, d) :: initPrecs rest d

/-!
Helper lemmas shared by the claim theorems.
-/

theorem loopBody_dep_a (T : ℕ) (c : ℚ) (i : ℕ) (st : WState) :
    (loopBody T c i st).dep_a =
      ((12*i + 10 : ℕ) : ℚ) * ((12*i + 6 : ℕ) : ℚ) * ((12*i + 2 : ℕ) : ℚ) * st.dep_a /
        ((i + 1 : ℕ) : ℚ) ^ 3 := rfl

theorem loopBody_dep_b (T : ℕ) (c : ℚ) (i : ℕ) (st : WState) :
    (loopBody T c i st).dep_b = st.dep_b * c := rfl

theorem loopBody_dep_c (T : ℕ) (c : ℚ) (i : ℕ) (st : WState) :
    (loopBody T c i st).dep_c = st.dep_c + (depCIncrement T : ℚ) := rfl

theorem workerInit_dep_a (T bs t : ℕ) :
    (workerInit T bs t).dep_a = init_dep_a_gmp (bs + t) := rfl

theorem workerInit_dep_b (T bs t : ℕ) :
    (workerInit T bs t).dep_b = cVal T ^ (bs + t) := rfl

theorem workerInit_dep_c (T bs t : ℕ) :
    (workerInit T bs t).dep_c = (B : ℚ) * ((bs + t : ℕ) : ℚ) + (A : ℚ) := rfl

theorem factorial_six_succ (n : ℕ) :
    Nat.factorial (6 * (n + 1)) =
      (6*n+1) * ((6*n+2) * ((6*n+3) * ((6*n+4) * ((6*n+5) * ((6*n+6) *
        Nat.factorial (6*n)))))) := by
  have h : 6 * (n + 1) = 6 * n + 6 := by ring
  rw [h, show 6*n+6 = (6*n+5)+1 from rfl, Nat.factorial_succ,
    show 6*n+5 = (6*n+4)+1 from rfl, Nat.factorial_succ,
    show 6*n+4 = (6*n+3)+1 from rfl, Nat.factorial_succ,
    show 6*n+3 = (6*n+2)+1 from rfl, Nat.factorial_succ,
    show 6*n+2 = (6*n+1)+1 from rfl, Nat.factorial_succ,
    Nat.factorial_succ (6*n)]
  ring

theorem factorial_three_succ (n : ℕ) :
    Nat.factorial (3 * (n + 1)) =
      (3*n+1) * ((3*n+2) * ((3*n+3) * Nat.factorial (3*n))) := by
  have h : 3 * (n + 1) = 3 * n + 3 := by ring
  rw [h, show 3*n+3 = (3*n+2)+1 from rfl, Nat.factorial_succ,
    show 3*n+2 = (3*n+1)+1 from rfl, Nat.factorial_succ,
    Nat.factorial_succ (3*n)]
  ring

/-- The closed-form ratio step: the loop's `dep_a` update factor
`(12n+10)(12n+6)(12n+2) / (n+1)^3` advances `(6n)! / ((3n)! (n!)^3)` by one
index. -/
theorem init_dep_a_gmp_succ (n : ℕ) :
    ((12*n + 10 : ℕ) : ℚ) * ((12*n + 6 : ℕ) : ℚ) * ((12*n + 2 : ℕ) : ℚ) *
        init_dep_a_gmp n / ((n + 1 : ℕ) : ℚ) ^ 3 = init_dep_a_gmp (n + 1) := by
  have hf6 : (Nat.factorial (6*n) : ℚ) ≠ 0 :=
    Nat.cast_ne_zero.mpr (Nat.factorial_ne_zero _)
  have hf3 : (Nat.factorial (3*n) : ℚ) ≠ 0 :=
    Nat.cast_ne_zero.mpr (Nat.factorial_ne_zero _)
  have hfn : (Nat.factorial n : ℚ) ≠ 0 :=
    Nat.cast_ne_zero.mpr (Nat.factorial_ne_zero _)
  have hn1 : ((n : ℚ) + 1) ≠ 0 := by positivity
  simp only [init_dep_a_gmp, factorial_six_succ, factorial_three_succ, Nat.factorial_succ]
  push_cast
  field_simp
  ring

/-- The state reached by starting at index 0 and applying the per-term
(stride-one) loop advance `n` times. -/
def advanceFromZero (n : ℕ) : WState :=
  (List.range n).foldl (fun st i => loopBody 1 (cVal 1) i st) (workerInit 1 0 0)

theorem block_size_eq_ceil (n P : ℕ) (hn : 1 ≤ n) (hp : 1 ≤ P) :
    block_size n P = ⌈(n : ℚ) / (P : ℚ)⌉₊ := by
  have hdm := Nat.div_add_mod (n + P - 1) P
  have hml : (n + P - 1) % P < P := Nat.mod_lt _ hp
  have hmc : block_size n P * P = P * block_size n P := Nat.mul_comm _ _
  have hsm : (block_size n P - 1) * P = block_size n P * P - 1 * P := Nat.sub_mul _ _ _
  have hbs : block_size n P = (n + P - 1) / P := rfl
  have hle : n ≤ P * block_size n P := by rw [hbs]; omega
  have hk : block_size n P ≠ 0 := by intro h0; rw [h0, Nat.mul_zero] at hle; omega
  have hlt : (block_size n P - 1) * P < n := by rw [hsm, hmc, hbs]; omega
  have hle2 : n ≤ block_size n P * P := by rw [hmc]; exact hle
  have hP0Q : (0 : ℚ) < (P : ℚ) := by exact_mod_cast hp
  symm
  rw [Nat.ceil_eq_iff hk]
  constructor
  · rw [lt_div_iff₀ hP0Q]
    exact_mod_cast hlt
  · rw [div_le_iff₀ hP0Q]
    exact_mod_cast hle2

theorem workerIndices_empty (bs t be T : ℕ) (h : be ≤ bs) :
    workerIndices bs t be T = [] := by
  unfold workerIndices
  have h0 : be - (bs + t) = 0 := by omega
  rw [h0]
  rcases T with _ | T
  · rfl
  · rw [Nat.div_eq_of_lt (by omega)]
    rfl

theorem initPrecs_all_same (l : List GmpCall) (b : ℤ)
    (hl : ∀ g ∈ l, ∀ bits, g ≠ GmpCall.setDefaultPrec bits) :
    ∀ pr ∈ initPrecs l (some b), pr.2 = some b := by
  induction l with
  | nil =>
    intro pr hpr
    simp [initPrecs] at hpr
  | cons g rest ih =>
    intro pr hpr
    cases g with
    | setDefaultPrec bits => exact absurd rfl (hl _ (List.mem_cons_self _ _) bits)
    | initMpf v =>
      simp only [initPrecs, List.mem_cons] at hpr
      rcases hpr with h1 | h2
      · rw [h1]
      · exact ih (fun g hg bits => hl g (List.mem_cons_of_mem _ hg) bits) pr h2

theorem chudnovskyInitCalls_no_setPrec (T : ℕ) :
    ∀ g ∈ chudnovskyInitCalls T, ∀ bits, g ≠ GmpCall.setDefaultPrec bits := by
  intro g hg bits hne
  subst hne
  simp [chudnovskyInitCalls, threadInitCalls] at hg

end PiDecimals

namespace PiDecimals

/-!
Claim theorems.
-/

/-- C1: the claim asserts that for every accepted configuration the
blocks-and-cyclic decomposition sums to the same value as a single-threaded
sequential pass.  The code violates it: already at `num_iterations = 2`,
`num_procs = 1`, `num_threads = 2` (accepted by the pre-flight check since
`2 >= 2 * 1`) the reduced sum differs from the single-threaded sum, because
thread 1 initialises `dep_b` to `((-C)^(3*2))^1 = C^6` instead of `(-C)^3`
and the loop advances `dep_a` by a single index per stride. -/
theorem chudnovsky_cyclic_sum_mismatch : globalPi 1 2 2 ≠ globalPi 1 2 1 := by
  have h1 : workerIndices 0 0 2 2 = [0] := rfl
  have h2 : workerIndices 0 1 2 2 = [1] := rfl
  have h3 : workerIndices 0 0 2 1 = [0, 1] := rfl
  have hs : block_start 2 1 0 = 0 := rfl
  have he : block_end 2 1 0 = 2 := rfl
  have hd : depCIncrement 1 = 545140134 := rfl
  norm_num [globalPi, Finset.sum_range_succ, local_proc_pi, runWorker, hs, he, h1, h2, h3,
    workerInit, loopBody, chudnovsky_iteration_gmp, init_dep_a_gmp, cVal, hd,
    A, B, C, Nat.factorial]

/-- C2: the recurrence state produced by direct initialisation at index `n`
(`init_dep_a_gmp n`, `dep_b = c^n`, `dep_c = B*n + A`) equals the state
obtained by starting at index 0 and applying the per-term advance `n` times;
exact in the rational model, hence within rounding tolerance in GMP. -/
theorem direct_init_eq_advance_from_zero (n : ℕ) :
    (advanceFromZero n).dep_a = (workerInit 1 n 0).dep_a ∧
    (advanceFromZero n).dep_b = (workerInit 1 n 0).dep_b ∧
    (advanceFromZero n).dep_c = (workerInit 1 n 0).dep_c := by
  induction n with
  | zero => exact ⟨rfl, rfl, rfl⟩
  | succ n ih =>
    obtain ⟨ha, hb, hc⟩ := ih
    have hstep : advanceFromZero (n + 1) = loopBody 1 (cVal 1) n (advanceFromZero n) := by
      unfold advanceFromZero
      rw [List.range_succ, List.foldl_append, List.foldl_cons, List.foldl_nil]
    have hinc : depCIncrement 1 = B := rfl
    refine ⟨?_, ?_, ?_⟩
    · rw [hstep, loopBody_dep_a, ha, workerInit_dep_a, workerInit_dep_a]
      simp only [Nat.add_zero]
      exact init_dep_a_gmp_succ n
    · rw [hstep, loopBody_dep_b, hb, workerInit_dep_b, workerInit_dep_b]
      simp only [Nat.add_zero, pow_succ]
    · rw [hstep, loopBody_dep_c, hc, workerInit_dep_c, workerInit_dep_c, hinc]
      push_cast
      ring

/-- C3: the claim asserts that every advance adds exactly `B * num_threads`
to `dep_c` for every accepted thread count.  At `num_threads = 4` (accepted
whenever `num_iterations >= 4`), the 32-bit `int` product `B * 4 = 2180560536`
overflows `INT_MAX`; with wraparound it becomes `-2114406760`, and its
conversion to `unsigned long` makes `mpf_add_ui` add `18446744071595144856`
instead. -/
theorem dep_c_increment_overflow_at_four_threads :
    depCIncrement 4 = 18446744071595144856 ∧
    B * 4 = 2180560536 ∧
    depCIncrement 4 ≠ B * 4 ∧
    (loopBody 4 (cVal 4) 0 (workerInit 4 0 0)).dep_c =
      (workerInit 4 0 0).dep_c + 18446744071595144856 := by
  refine ⟨by decide, by decide, by decide, ?_⟩
  rw [loopBody_dep_c]
  norm_num [show depCIncrement 4 = 18446744071595144856 from by decide]

/-- C4: for every `num_iterations >= 1` and `num_procs >= 1`, the block of
process `p` is `[p * blockSize, min((p+1) * blockSize, num_iterations))` with
`blockSize = ceil(num_iterations / num_procs)`. -/
theorem block_partition_spec (num_iterations num_procs proc_id : ℕ)
    (hn : 1 ≤ num_iterations) (hp : 1 ≤ num_procs) :
    block_size num_iterations num_procs =
      ⌈(num_iterations : ℚ) / (num_procs : ℚ)⌉₊ ∧
    block_start num_iterations num_procs proc_id =
      proc_id * block_size num_iterations num_procs ∧
    block_end num_iterations num_procs proc_id =
      min ((proc_id + 1) * block_size num_iterations num_procs) num_iterations := by
  refine ⟨block_size_eq_ceil _ _ hn hp, rfl, ?_⟩
  unfold block_end block_start
  rw [Nat.succ_mul]

/-- Witness for C4 at `num_iterations = 5`, `num_procs = 2`, `proc_id = 1`. -/
theorem block_partition_spec_witness :
    1 ≤ 5 ∧ 1 ≤ 2 ∧
      (block_size 5 2 = ⌈((5 : ℕ) : ℚ) / ((2 : ℕ) : ℚ)⌉₊ ∧
       block_start 5 2 1 = 1 * block_size 5 2 ∧
       block_end 5 2 1 = min ((1 + 1) * block_size 5 2) 5) :=
  ⟨by norm_num, by norm_num, block_partition_spec 5 2 1 (by norm_num) (by norm_num)⟩

/-- C5: a process whose clamped block is empty contributes exactly zero, and
the collective reduction is unchanged by its (still present) contribution. -/
theorem empty_block_contributes_identity (num_procs proc_id num_iterations num_threads : ℕ)
    (h : block_end num_iterations num_procs proc_id ≤
      block_start num_iterations num_procs proc_id) :
    local_proc_pi num_procs proc_id num_iterations num_threads = 0 ∧
    globalPi num_procs num_iterations num_threads =
      ∑ p ∈ (Finset.range num_procs).erase proc_id,
        local_proc_pi num_procs p num_iterations num_threads := by
  have hz : local_proc_pi num_procs proc_id num_iterations num_threads = 0 := by
    unfold local_proc_pi
    apply Finset.sum_eq_zero
    intro t _
    unfold runWorker
    rw [workerIndices_empty _ _ _ _ h]
    rfl
  exact ⟨hz,
    (Finset.sum_erase (f := fun p => local_proc_pi num_procs p num_iterations num_threads)
      (Finset.range num_procs) hz).symm⟩

/-- Witness for C5 at `num_iterations = 1`, `num_procs = 2`, `proc_id = 1`
(the second process owns no term). -/
theorem empty_block_contributes_identity_witness :
    block_end 1 2 1 ≤ block_start 1 2 1 ∧
      (local_proc_pi 2 1 1 1 = 0 ∧
       globalPi 2 1 1 = ∑ p ∈ (Finset.range 2).erase 1, local_proc_pi 2 p 1 1) :=
  ⟨by decide, empty_block_contributes_identity 2 1 1 1 (by decide)⟩

/-- C6: one call of `chudnovsky_iteration_gmp` adds exactly
`dep_a * dep_c / dep_b` to the accumulator `pi` in place and modifies none of
`dep_a`, `dep_b`, `dep_c`. -/
theorem chudnovsky_iteration_adds_term (n : ℕ) (st : WState) :
    (chudnovsky_iteration_gmp n st).pi = st.pi + st.dep_a * st.dep_c / st.dep_b ∧
    (chudnovsky_iteration_gmp n st).dep_a = st.dep_a ∧
    (chudnovsky_iteration_gmp n st).dep_b = st.dep_b ∧
    (chudnovsky_iteration_gmp n st).dep_c = st.dep_c :=
  ⟨rfl, rfl, rfl, rfl⟩

/-- C7: at the root, the final value written to `pi` is
`sqrt(E) * D / GlobalPi` with `E = 10005` and `D = 426880`. -/
theorem root_final_assembly (num_procs proc_id num_iterations num_threads : ℕ)
    (pi : ℝ) (h : proc_id = 0) :
    chudnovsky_algorithm_gmp num_procs proc_id pi num_iterations num_threads =
      Real.sqrt 10005 * 426880 /
        ((globalPi num_procs num_iterations num_threads : ℚ) : ℝ) := by
  subst h
  simp [chudnovsky_algorithm_gmp, E, D]

/-- Witness for C7 at rank 0 with one process, one thread, one iteration. -/
theorem root_final_assembly_witness :
    chudnovsky_algorithm_gmp 1 0 0 1 1 =
      Real.sqrt 10005 * 426880 / ((globalPi 1 1 1 : ℚ) : ℝ) :=
  root_final_assembly 1 0 1 1 0 rfl

/-- C8: `check_errors_gmp` aborts with non-zero status when `precision <= 0`
or `num_iterations < num_threads * num_procs`, printing only at rank 0, and
accepts (changing nothing) every other configuration. -/
theorem check_errors_gmp_spec (num_procs precision num_iterations num_threads proc_id : ℤ) :
    ((precision ≤ 0 ∨ num_iterations < num_threads * num_procs) →
      (check_errors_gmp num_procs precision num_iterations num_threads proc_id).exits = true ∧
      (check_errors_gmp num_procs precision num_iterations num_threads proc_id).exit_code ≠ 0 ∧
      ((check_errors_gmp num_procs precision num_iterations num_threads
          proc_id).prints_message = true ↔ proc_id = 0)) ∧
    (¬precision ≤ 0 → ¬num_iterations < num_threads * num_procs →
      check_errors_gmp num_procs precision num_iterations num_threads proc_id =
        { exits := false, exit_code := 0, prints_message := false }) := by
  unfold check_errors_gmp
  by_cases hp : precision ≤ 0 <;>
    by_cases hi : num_iterations < num_threads * num_procs <;>
      simp [hp, hi, beq_iff_eq]

/-- Witness for C8 at `precision = 0` on the non-root rank 1: the run aborts
with status `-1` and rank 1 does not print. -/
theorem check_errors_gmp_spec_witness :
    ((0 : ℤ) ≤ 0 ∨ (4 : ℤ) < 2 * 2) ∧
      ((check_errors_gmp 2 0 4 2 1).exits = true ∧
       (check_errors_gmp 2 0 4 2 1).exit_code ≠ 0 ∧
       ((check_errors_gmp 2 0 4 2 1).prints_message = true ↔ (1 : ℤ) = 0)) :=
  ⟨Or.inl le_rfl, (check_errors_gmp_spec 2 0 4 2 1).1 (Or.inl le_rfl)⟩

/-- C9: on every non-root rank, `chudnovsky_algorithm_gmp` leaves the output
parameter `pi` exactly as it was passed in. -/
theorem nonroot_leaves_pi_untouched (num_procs proc_id num_iterations num_threads : ℕ)
    (pi : ℝ) (h : proc_id ≠ 0) :
    chudnovsky_algorithm_gmp num_procs proc_id pi num_iterations num_threads = pi := by
  simp [chudnovsky_algorithm_gmp, h]

/-- Witness for C9 at rank 1 of 2: the input value 37 survives unchanged. -/
theorem nonroot_leaves_pi_untouched_witness :
    chudnovsky_algorithm_gmp 2 1 37 2 1 = 37 :=
  nonroot_leaves_pi_untouched 2 1 2 1 37 (by norm_num)

/-- C10: `calculate_pi_gmp` sets the default precision to `precision * 8`
bits as its first precision-relevant GMP call, and every `mpf` value
initialised during the run is created under that default precision. -/
theorem default_prec_set_before_any_init (precision : ℤ) (proc_id num_threads : ℕ) :
    (calculate_pi_gmp_calls precision proc_id num_threads).head? =
      some (GmpCall.setDefaultPrec (precision * 8)) ∧
    ∀ pr ∈ initPrecs (calculate_pi_gmp_calls precision proc_id num_threads) none,
      pr.2 = some (precision * 8) := by
  refine ⟨rfl, ?_⟩
  have hshape : ∀ g ∈ (if proc_id = 0 then [GmpCall.initMpf MpfVar.pi] else []) ++
      chudnovskyInitCalls num_threads, ∀ bits, g ≠ GmpCall.setDefaultPrec bits := by
    intro g hg bits hne
    subst hne
    rcases List.mem_append.mp hg with h | h
    · split at h
      · simp at h
      · simp at h
    · exact chudnovskyInitCalls_no_setPrec _ _ h bits rfl
  intro pr hpr
  simp only [calculate_pi_gmp_calls, initPrecs] at hpr
  exact initPrecs_all_same _ _ hshape pr hpr

/-- Witness for C10: with `precision = 3` at rank 0 and one thread, the root
accumulator `pi` is initialised under default precision `3 * 8 = 24` bits. -/
theorem default_prec_set_before_any_init_witness :
    (MpfVar.pi, some ((3 : ℤ) * 8)) ∈ initPrecs (calculate_pi_gmp_calls 3 0 1) none ∧
      (MpfVar.pi, some ((3 : ℤ) * 8)).2 = some ((3 : ℤ) * 8) :=
  ⟨by decide, (default_prec_set_before_any_init 3 0 1).2 _ (by decide)⟩

end PiDecimals
